import Mathlib

/-!
# llfs — verification of spec claims against a shallow embedding

The repository's `src/` tree contains the bloom-filter helper
(`src/llfs/bloom_filter.hpp`) and an empty translation unit for the
io_uring log device.  The bloom-filter definitions below are translated
directly from that header.  The LogDevice / PageAllocator / PageDevice
implementations are not present under `src/`, so those components are
modelled from the specification text (each such definition is marked
`Modelled from the spec:`).
-/

namespace llfs

/-! ## LogDevice (modelled from the spec)

Spec §3/§4.1: state is a tuple of monotone byte offsets
`(trim_pos, flush_pos, commit_pos)` plus a capacity `C`, with a set of
outstanding `SlotReadLock` intervals `[lo, hi)`.
-/

/-- Modelled from the spec: error kinds relevant to the LogDevice
operations (`NoSpace` for `append`; trim refusal reasons). -/
inductive LogError where
  | NoSpace
  | TrimBeyondFlush
  | TrimLocked
deriving DecidableEq, Repr

/-- Modelled from the spec: LogDevice state.  `locks` is the set of
outstanding SlotReadLock intervals `[lo, hi)` (spec §4.2). -/
structure LogState where
  capacity : Nat
  trim_pos : Nat
  flush_pos : Nat
  commit_pos : Nat
  locks : List (Nat × Nat)
deriving DecidableEq, Repr

/-- Modelled from the spec: a freshly created LogDevice of capacity `C`
(all pointers at offset 0, no outstanding locks). -/
def LogState.init (C : Nat) : LogState :=
  { capacity := C, trim_pos := 0, flush_pos := 0, commit_pos := 0, locks := [] }

/-- Modelled from the spec: §4.1, `append(bytes)` with `n = length(bytes)`
"reserves [commit_pos, commit_pos+n), copies bytes, atomically advances
commit_pos. Fails with NoSpace if n > C − (commit_pos − trim_pos)."
(reserve and commit fused, as the spec allows). -/
def LogState.append (s : LogState) (n : Nat) : Except LogError LogState :=
  if n > s.capacity - (s.commit_pos - s.trim_pos) then
    .error .NoSpace
  else
    .ok { s with commit_pos := s.commit_pos + n }

/-- Modelled from the spec: §4.1, the completion of a `flush_barrier()`
request: `flush_pos` catches up to the current `commit_pos`. -/
def LogState.flushBarrier (s : LogState) : LogState :=
  { s with flush_pos := s.commit_pos }

/-- Modelled from the spec: §4.1/§4.2, `trim(new_trim_pos)` "requires
new_trim_pos ≤ flush_pos and no outstanding SlotReadLock covering a range
below it"; the LogDevice "refuses a trim that would cross any held
interval".  Offsets are monotone, so the trim pointer never moves
backwards. -/
def LogState.trim (s : LogState) (p : Nat) : Except LogError LogState :=
  if p > s.flush_pos then
    .error .TrimBeyondFlush
  else if s.locks.any (fun l => decide (l.1 < p)) then
    .error .TrimLocked
  else
    .ok { s with trim_pos := max s.trim_pos p }

/-- Modelled from the spec: §4.2, acquiring a SlotReadLock on `[lo, hi)`. -/
def LogState.acquireLock (s : LogState) (lo hi : Nat) : LogState :=
  { s with locks := (lo, hi) :: s.locks }

/-- Modelled from the spec: §4.2, releasing a SlotReadLock handle (removes
one occurrence of the interval). -/
def LogState.releaseLock (s : LogState) (lo hi : Nat) : LogState :=
  { s with locks := s.locks.erase (lo, hi) }

/-- Modelled from the spec: §4.1, crash recovery: "commit_pos may regress to
flush_pos (uncommitted-but-unflushed data is lost); trim_pos persists."
Locks are in-memory handles and do not survive a crash. -/
def LogState.crashRecover (s : LogState) : LogState :=
  { s with commit_pos := s.flush_pos, locks := [] }

/-- Modelled from the spec: the operations of a LogDevice trace. -/
inductive LogOp where
  | append (n : Nat)
  | flushBarrier
  | trim (p : Nat)
  | acquireLock (lo hi : Nat)
  | releaseLock (lo hi : Nat)
  | crash
deriving DecidableEq, Repr

/-- Modelled from the spec: one step of a LogDevice trace; an operation
that fails (`NoSpace`, refused trim) leaves the state unchanged. -/
def LogState.step (s : LogState) : LogOp → LogState
  | .append n => (s.append n).toOption.getD s
  | .flushBarrier => s.flushBarrier
  | .trim p => (s.trim p).toOption.getD s
  | .acquireLock lo hi => s.acquireLock lo hi
  | .releaseLock lo hi => s.releaseLock lo hi
  | .crash => s.crashRecover

/-- Modelled from the spec: running a trace of LogDevice operations. -/
def LogState.run (s : LogState) (ops : List LogOp) : LogState :=
  ops.foldl LogState.step s

/-- The three-pointer invariant of spec §3:
`0 ≤ trim_pos ≤ flush_pos ≤ commit_pos` and `commit_pos − trim_pos ≤ C`. -/
def LogState.Inv (s : LogState) : Prop :=
  s.trim_pos ≤ s.flush_pos ∧ s.flush_pos ≤ s.commit_pos ∧
    s.commit_pos - s.trim_pos ≤ s.capacity

instance (s : LogState) : Decidable s.Inv := by
  unfold LogState.Inv; infer_instance

theorem LogState.step_capacity (s : LogState) (op : LogOp) :
    (s.step op).capacity = s.capacity := by
  cases op with
  | append n =>
    simp only [LogState.step, LogState.append]
    split <;> rfl
  | trim p =>
    simp only [LogState.step, LogState.trim]
    split
    · rfl
    · split <;> rfl
  | _ => rfl

theorem LogState.step_inv {s : LogState} (h : s.Inv) (op : LogOp) :
    (s.step op).Inv := by
  obtain ⟨h1, h2, h3⟩ := h
  cases op with
  | append n =>
    simp only [LogState.step, LogState.append]
    split
    · exact ⟨h1, h2, h3⟩
    · refine ⟨h1, ?_, ?_⟩ <;> simp_all [Except.toOption, LogState.Inv] <;> omega
  | flushBarrier =>
    refine ⟨?_, le_refl _, ?_⟩ <;> simp only [LogState.flushBarrier, LogState.step] <;> omega
  | trim p =>
    simp only [LogState.step, LogState.trim]
    split
    · exact ⟨h1, h2, h3⟩
    · split
      · exact ⟨h1, h2, h3⟩
      · refine ⟨?_, h2, ?_⟩
        · simp_all [Except.toOption]
        · simp_all [Except.toOption]
          omega
  | acquireLock lo hi => exact ⟨h1, h2, h3⟩
  | releaseLock lo hi => exact ⟨h1, h2, h3⟩
  | crash =>
    refine ⟨h1, le_refl _, ?_⟩
    simp only [LogState.crashRecover, LogState.step]
    omega

theorem LogState.run_inv {s : LogState} (h : s.Inv) (ops : List LogOp) :
    (s.run ops).Inv := by
  induction ops generalizing s with
  | nil => exact h
  | cons op ops ih => exact ih (LogState.step_inv h op)

/-- Claim C1: For every LogDevice (created with capacity `C`) and every trace
of operations (append, flush, trim, lock handling, crash/recover), the
three pointers satisfy `0 ≤ trim_pos ≤ flush_pos ≤ commit_pos` and
`commit_pos − trim_pos ≤ C`; this holds after every operation, including
any state recovered after a crash (crash is an operation of the trace). -/
theorem C1_logdevice_pointer_invariant (C : Nat) (ops : List LogOp) :
    ((LogState.init C).run ops).Inv ∧ ((LogState.init C).run ops).capacity = C := by
  constructor
  · exact LogState.run_inv ⟨le_refl _, le_refl _, by simp [LogState.init]⟩ ops
  · induction ops using List.reverseRecOn with
    | nil => rfl
    | append_singleton ops op ih =>
      calc ((LogState.init C).run (ops ++ [op])).capacity
          = (((LogState.init C).run ops).step op).capacity := by
            simp [LogState.run]
        _ = C := by rw [LogState.step_capacity]; exact ih

/-- Claim C5: `append(bytes)` with `n = length(bytes)` fails with `NoSpace`
if and only if `n > C − (commit_pos − trim_pos)`; on failure it leaves
`trim_pos`, `flush_pos` and `commit_pos` unchanged (the step is the
identity on the state); on success it advances `commit_pos` by exactly `n`
and changes nothing else. -/
theorem C5_append_nospace_semantics (s : LogState) (n : Nat) :
    (s.append n = .error .NoSpace ↔ s.capacity - (s.commit_pos - s.trim_pos) < n) ∧
    (s.append n = .error .NoSpace → s.step (.append n) = s) ∧
    (∀ s', s.append n = .ok s' →
      s'.commit_pos = s.commit_pos + n ∧ s'.trim_pos = s.trim_pos ∧
      s'.flush_pos = s.flush_pos ∧ s'.capacity = s.capacity ∧ s'.locks = s.locks) := by
  refine ⟨?_, ?_, ?_⟩
  · unfold LogState.append
    split
    · simpa using by omega
    · simp_all
  · intro h
    simp only [LogState.step, h, Except.toOption, Option.getD]
  · intro s' h
    unfold LogState.append at h
    split at h
    · cases h
    · cases h
      exact ⟨rfl, rfl, rfl, rfl, rfl⟩

theorem C5_append_nospace_semantics_witness :
    ((LogState.init 4).append 5 = .error .NoSpace) ∧
    ((LogState.init 4).step (.append 5) = LogState.init 4) ∧
    (LogState.mk 4 0 0 3 []).commit_pos = (LogState.init 4).commit_pos + 3 := by
  have h5 := C5_append_nospace_semantics (LogState.init 4) 5
  have h3 := (C5_append_nospace_semantics (LogState.init 4) 3).2.2
    (LogState.mk 4 0 0 3 []) (by rfl)
  exact ⟨h5.1.mpr (by decide), h5.2.1 (h5.1.mpr (by decide)), h3.1⟩

/-- Claim C6: `trim(new_trim_pos)` succeeds if and only if
`new_trim_pos ≤ flush_pos` and no outstanding SlotReadLock holds an
interval `[lo, hi)` with `lo < new_trim_pos`; a refused trim leaves the
state unchanged, and after releasing the blocking lock the same trim
succeeds (provided no other lock still blocks it). -/
theorem C6_trim_lock_semantics (s : LogState) (p : Nat) :
    ((∃ s', s.trim p = .ok s') ↔ p ≤ s.flush_pos ∧ ∀ l ∈ s.locks, p ≤ l.1) ∧
    (∀ e, s.trim p = .error e → s.step (.trim p) = s) ∧
    (∀ lo hi, p ≤ s.flush_pos → (∀ l ∈ (s.releaseLock lo hi).locks, p ≤ l.1) →
      ∃ s', (s.releaseLock lo hi).trim p = .ok s') := by
  have key : ∀ t : LogState, (∃ s', t.trim p = .ok s') ↔
      p ≤ t.flush_pos ∧ ∀ l ∈ t.locks, p ≤ l.1 := by
    intro t
    unfold LogState.trim
    split
    · constructor
      · rintro ⟨s', hs'⟩; cases hs'
      · intro ⟨h1, _⟩; omega
    · split
      · constructor
        · rintro ⟨s', hs'⟩; cases hs'
        · rintro ⟨-, h2⟩
          rename_i hany
          rw [List.any_eq_true] at hany
          obtain ⟨l, hl, hlt⟩ := hany
          have := h2 l hl
          simp only [decide_eq_true_eq] at hlt
          omega
      · constructor
        · rintro -
          refine ⟨by omega, fun l hl => ?_⟩
          rename_i hany
          rw [Bool.not_eq_true, List.any_eq_false] at hany
          have := hany l hl
          simp only [decide_eq_true_eq] at this
          omega
        · rintro -; exact ⟨_, rfl⟩
  refine ⟨key s, ?_, ?_⟩
  · intro e h
    simp only [LogState.step, h, Except.toOption, Option.getD]
  · intro lo hi h1 h2
    exact (key (s.releaseLock lo hi)).mpr ⟨h1, h2⟩

theorem C6_trim_lock_semantics_witness :
    ((LogState.mk 10 0 4 4 [(0, 4)]).step (.trim 4) = LogState.mk 10 0 4 4 [(0, 4)]) ∧
    ∃ s', ((LogState.mk 10 0 4 4 [(0, 4)]).releaseLock 0 4).trim 4 = .ok s' := by
  have h := C6_trim_lock_semantics (LogState.mk 10 0 4 4 [(0, 4)]) 4
  exact ⟨h.2.1 .TrimLocked (by rfl), h.2.2 0 4 (by decide) (by decide)⟩

/-! ## PageAllocator (modelled from the spec)

Spec §3/§4.4: per-page `(refcount_i, generation_i)` plus an attachments
table `uuid → last_slot`; a durable log of `Update{uuid, slot, deltas}`
records; recovery replays the log from the checkpoint, applying each
record only if its slot exceeds the recovered `last_slot` for its uuid.
-/

/-- Modelled from the spec: §4.4, one durable
`Update{client_uuid, client_slot, page_deltas[...]}` record; each delta is
`(page index, Δ)`. -/
structure AllocUpdate where
  uuid : Nat
  slot : Nat
  deltas : List (Nat × Int)
deriving DecidableEq, Repr

/-- Modelled from the spec: the in-memory refcount/attachment tables of a
PageAllocator (the checkpointable part of the state).  The attachments
table is the spec's map `uuid → last_slot`; `none` means the uuid is not
attached. -/
structure AllocMem where
  lastSlot : Nat → Option Nat
  refcounts : Nat → Int

/-- Modelled from the spec: §4.4, apply the deltas of an update in order:
`refcount_i ← refcount_i + Δ`. -/
def applyDeltas (rc : Nat → Int) (deltas : List (Nat × Int)) : Nat → Int :=
  deltas.foldl (fun rc d => fun i => if i = d.1 then rc i + d.2 else rc i) rc

/-- Modelled from the spec: §4.4 (exactly-once replay rule), apply an
Update record to the tables — only if the client is attached and the
record's slot exceeds `last_slot[uuid]`; applying it atomically advances
`last_slot[uuid]`. -/
def AllocMem.applyUpdate (m : AllocMem) (u : AllocUpdate) : AllocMem :=
  match m.lastSlot u.uuid with
  | none => m
  | some ls =>
    if u.slot ≤ ls then m
    else { lastSlot := fun uid => if uid = u.uuid then some u.slot else m.lastSlot uid,
           refcounts := applyDeltas m.refcounts u.deltas }

/-- Modelled from the spec: §4.4, full PageAllocator state: the latest
checkpoint (`base`), the durable log tail of Update records, and the
in-memory tables. -/
structure AllocState where
  base : AllocMem
  log : List AllocUpdate
  mem : AllocMem

/-- Modelled from the spec: §4.4, recovery "reads the latest checkpoint,
then replays tail Updates; each Update is applied only if its slot exceeds
the recovered last_slot for its uuid". -/
def replayLog (base : AllocMem) (log : List AllocUpdate) : AllocMem :=
  log.foldl AllocMem.applyUpdate base

/-- Modelled from the spec: status codes of `update`. -/
inductive AllocStatus where
  | ok
  | unknownClient
deriving DecidableEq, Repr

/-- Modelled from the spec: §4.4, `update(uuid, slot, deltas)`.
"If slot ≤ last_slot[uuid], returns ok without reapplying.  Else appends
an Update record to the log, waits for Durable flush, then applies deltas
to the in-memory table and advances last_slot[uuid] to slot." -/
def AllocState.update (σ : AllocState) (u : AllocUpdate) : AllocStatus × AllocState :=
  match σ.mem.lastSlot u.uuid with
  | none => (.unknownClient, σ)
  | some ls =>
    if u.slot ≤ ls then (.ok, σ)
    else (.ok, { base := σ.base, log := σ.log ++ [u], mem := σ.mem.applyUpdate u })

/-- Modelled from the spec: §4.4, crash followed by recovery: the in-memory
tables are rebuilt from the checkpoint and the durable log tail. -/
def AllocState.crashRecover (σ : AllocState) : AllocState :=
  { σ with mem := replayLog σ.base σ.log }

/-- Modelled from the spec: events of a PageAllocator trace. -/
inductive AllocEvent where
  | update (u : AllocUpdate)
  | crash
deriving DecidableEq, Repr

/-- Modelled from the spec: one trace step. -/
def AllocState.step (σ : AllocState) : AllocEvent → AllocState
  | .update u => (σ.update u).2
  | .crash => σ.crashRecover

/-- Modelled from the spec: running a trace of PageAllocator events. -/
def AllocState.run (σ : AllocState) (evs : List AllocEvent) : AllocState :=
  evs.foldl AllocState.step σ

/-- Well-formedness: the in-memory tables agree with recovery from the
durable state (the spec's durability discipline: an update is applied in
memory only after its record is durable). -/
def AllocState.WF (σ : AllocState) : Prop :=
  σ.mem = replayLog σ.base σ.log

theorem AllocState.update_wf {σ : AllocState} (h : σ.WF) (u : AllocUpdate) :
    (σ.update u).2.WF := by
  unfold AllocState.update
  cases hl : σ.mem.lastSlot u.uuid with
  | none => exact h
  | some ls =>
    by_cases hs : u.slot ≤ ls
    · simp only [hs, if_true]
      exact h
    · simp only [hs, if_false]
      show σ.mem.applyUpdate u = replayLog σ.base (σ.log ++ [u])
      rw [replayLog, List.foldl_append]
      simp only [List.foldl_cons, List.foldl_nil]
      rw [← replayLog, ← h]

theorem AllocState.step_wf {σ : AllocState} (h : σ.WF) (e : AllocEvent) :
    (σ.step e).WF := by
  cases e with
  | update u => exact AllocState.update_wf h u
  | crash => rfl

theorem AllocState.run_wf {σ : AllocState} (h : σ.WF) (evs : List AllocEvent) :
    (σ.run evs).WF := by
  induction evs generalizing σ with
  | nil => exact h
  | cons e evs ih => exact ih (AllocState.step_wf h e)

/-- Under well-formedness, crash/recover restores exactly the pre-crash
tables: recovery is the identity on the logical state. -/
theorem AllocState.crashRecover_eq {σ : AllocState} (h : σ.WF) :
    σ.crashRecover = σ := by
  unfold AllocState.crashRecover
  rw [← h]

/-- The net effect of a delta list on page index `i`: the sum of the `Δ`s
of the deltas that target `i`. -/
def sumDeltasAt (deltas : List (Nat × Int)) (i : Nat) : Int :=
  ((deltas.filter (fun d => d.1 = i)).map (·.2)).sum

theorem applyDeltas_eq (deltas : List (Nat × Int)) (rc : Nat → Int) (i : Nat) :
    applyDeltas rc deltas i = rc i + sumDeltasAt deltas i := by
  induction deltas generalizing rc with
  | nil => simp [applyDeltas, sumDeltasAt]
  | cons d t ih =>
    show applyDeltas (fun j => if j = d.1 then rc j + d.2 else rc j) t i = _
    rw [ih]
    simp only [sumDeltasAt, List.filter_cons]
    by_cases h : d.1 = i
    · simp only [if_pos h.symm, decide_eq_true_eq, h, if_pos trivial]
      simp only [List.map_cons, List.sum_cons]
      ring
    · have h' : ¬(i = d.1) := fun hc => h hc.symm
      simp only [if_neg h', decide_eq_true_eq, h, if_neg (fun hc => h hc)]
      rfl

/-- Predicate: `last_slot[uuid]` is at least `s` whenever `uuid` is attached. -/
def AllocState.SlotLB (σ : AllocState) (uuid s : Nat) : Prop :=
  ∀ ls, σ.mem.lastSlot uuid = some ls → s ≤ ls

theorem AllocMem.applyUpdate_lastSlot_mono (m : AllocMem) (u : AllocUpdate) (uid s : Nat)
    (h : ∀ ls, m.lastSlot uid = some ls → s ≤ ls) :
    ∀ ls, (m.applyUpdate u).lastSlot uid = some ls → s ≤ ls := by
  unfold AllocMem.applyUpdate
  cases hl : m.lastSlot u.uuid with
  | none => exact h
  | some ls0 =>
    by_cases hs : u.slot ≤ ls0
    · simp only [if_pos hs]
      exact h
    · simp only [if_neg hs]
      intro ls hls
      by_cases he : uid = u.uuid
      · subst he
        rw [if_pos rfl] at hls
        cases hls
        have := h ls0 hl
        omega
      · rw [if_neg he] at hls
        exact h ls hls

theorem AllocState.step_slotLB {σ : AllocState} {uuid s : Nat} (hwf : σ.WF)
    (h : σ.SlotLB uuid s) (e : AllocEvent) : (σ.step e).SlotLB uuid s := by
  cases e with
  | update u =>
    show ((σ.update u).2).SlotLB uuid s
    unfold AllocState.update
    cases hl : σ.mem.lastSlot u.uuid with
    | none => exact h
    | some ls0 =>
      by_cases hs : u.slot ≤ ls0
      · simp only [if_pos hs]
        exact h
      · simp only [if_neg hs]
        exact AllocMem.applyUpdate_lastSlot_mono σ.mem u uuid s h
  | crash =>
    show σ.crashRecover.SlotLB uuid s
    rw [AllocState.crashRecover_eq hwf]
    exact h

/-- After submitting an update, `last_slot[uuid]` is at least the update's
slot whenever the uuid is attached. -/
theorem AllocState.update_slotLB (σ : AllocState) (u : AllocUpdate) :
    ((σ.update u).2).SlotLB u.uuid u.slot := by
  unfold AllocState.update
  cases hl : σ.mem.lastSlot u.uuid with
  | none =>
    intro ls hls
    simp only at hls
    rw [hl] at hls
    cases hls
  | some ls0 =>
    by_cases hs : u.slot ≤ ls0
    · simp only [if_pos hs]
      intro ls hls
      rw [hl] at hls
      cases hls
      exact hs
    · simp only [if_neg hs]
      intro ls hls
      simp only [AllocMem.applyUpdate, hl, if_neg hs, if_pos rfl] at hls
      cases hls
      exact le_refl _

/-- Resubmitting an update whose slot is already covered leaves the state
unchanged. -/
theorem AllocState.update_noop {σ : AllocState} {u : AllocUpdate}
    (h : σ.SlotLB u.uuid u.slot) : σ.step (.update u) = σ := by
  show (σ.update u).2 = σ
  unfold AllocState.update
  cases hl : σ.mem.lastSlot u.uuid with
  | none => rfl
  | some ls0 =>
    simp only [if_pos (h ls0 hl)]

theorem AllocState.run_resubmit {σ : AllocState} {u : AllocUpdate}
    (hwf : σ.WF) (hlb : σ.SlotLB u.uuid u.slot) (evs : List AllocEvent) :
    σ.run (evs ++ [.update u]) = σ.run evs := by
  induction evs generalizing σ with
  | nil => exact AllocState.update_noop hlb
  | cons e evs ih =>
    show (σ.step e).run (evs ++ [.update u]) = (σ.step e).run evs
    exact ih (AllocState.step_wf hwf e) (AllocState.step_slotLB hwf hlb e)

/-- Claim C2: For every well-formed PageAllocator state, an attached client
uuid and a slot `s ≤ last_slot[uuid]`: `update(uuid, s, deltas)` returns
`ok` without changing anything; re-submitting an already-applied update
anywhere later — including across crash/recover cycles in between — leaves
the state exactly as if it had not been resubmitted; and a fresh update
(slot > last_slot) is applied exactly once, adding precisely the sum of
its deltas to each refcount. -/
theorem C2_update_exactly_once_idempotent (σ : AllocState) (u : AllocUpdate)
    (evs : List AllocEvent) (hwf : σ.WF) :
    (∀ ls, σ.mem.lastSlot u.uuid = some ls → u.slot ≤ ls → σ.update u = (.ok, σ)) ∧
    ((σ.step (.update u)).run (evs ++ [.update u]) = (σ.step (.update u)).run evs) ∧
    (∀ ls, σ.mem.lastSlot u.uuid = some ls → ls < u.slot →
      ∀ i, (σ.update u).2.mem.refcounts i = σ.mem.refcounts i + sumDeltasAt u.deltas i) := by
  refine ⟨?_, ?_, ?_⟩
  · intro ls hl hs
    unfold AllocState.update
    rw [hl]
    simp only [if_pos hs]
  · exact AllocState.run_resubmit (AllocState.step_wf hwf (.update u))
      (AllocState.update_slotLB σ u) evs
  · intro ls hl hs i
    unfold AllocState.update
    rw [hl]
    simp only [if_neg (by omega : ¬ u.slot ≤ ls)]
    show (σ.mem.applyUpdate u).refcounts i = _
    unfold AllocMem.applyUpdate
    rw [hl]
    simp only [if_neg (by omega : ¬ u.slot ≤ ls)]
    exact applyDeltas_eq u.deltas σ.mem.refcounts i

/-- Concrete allocator tables used by the C2 witness: client 1 attached at
last_slot 10, all refcounts 0. -/
def allocBase0 : AllocMem :=
  { lastSlot := fun uid => if uid = 1 then some 10 else none,
    refcounts := fun _ => 0 }

/-- Concrete freshly recovered allocator state (empty log tail). -/
def allocState0 : AllocState :=
  { base := allocBase0, log := [], mem := allocBase0 }

theorem C2_update_exactly_once_idempotent_witness :
    (allocState0.update ⟨1, 10, [(7, 5)]⟩ = (.ok, allocState0)) ∧
    ((allocState0.step (.update ⟨1, 11, [(7, 2)]⟩)).run
        ([.crash] ++ [.update ⟨1, 11, [(7, 2)]⟩])
      = (allocState0.step (.update ⟨1, 11, [(7, 2)]⟩)).run [.crash]) ∧
    ((allocState0.update ⟨1, 11, [(7, 2)]⟩).2.mem.refcounts 7
      = allocState0.mem.refcounts 7 + sumDeltasAt [(7, 2)] 7) :=
  ⟨(C2_update_exactly_once_idempotent allocState0 ⟨1, 10, [(7, 5)]⟩ [] rfl).1 10 rfl
      (by decide),
   (C2_update_exactly_once_idempotent allocState0 ⟨1, 11, [(7, 2)]⟩ [.crash] rfl).2.1,
   (C2_update_exactly_once_idempotent allocState0 ⟨1, 11, [(7, 2)]⟩ [] rfl).2.2 10 rfl
      (by decide) 7⟩

/-! ## PageId allocation and generations (modelled from the spec) -/

/-- Modelled from the spec: §3, a PageId with its physical page index and
generation components (the device index is fixed for a single device and
omitted). -/
structure PageId where
  physical_page_index : Nat
  generation : Nat
deriving DecidableEq, Repr

/-- Modelled from the spec: §3/§4.4, the per-page refcount and generation
tables of one device's PageAllocator, together with the device's
`page_count`. -/
structure PageTable where
  page_count : Nat
  refcounts : Nat → Int
  generations : Nat → Nat

/-- Modelled from the spec: §4.4, the physical indices with refcount 0
(free pages), in index order. -/
def PageTable.freeIndices (t : PageTable) : List Nat :=
  (List.range t.page_count).filter (fun i => t.refcounts i = 0)

/-- Modelled from the spec: §4.4, `allocate(count) → [PageId] | Exhausted`:
"picks count physical indices with refcount 0, bumps each generation,
returns fresh PageIds.  Does not persist until a subsequent update
references them at refcount 2."  The model picks the lowest free indices;
refcounts are untouched by `allocate` itself. -/
def PageTable.allocate (t : PageTable) (count : Nat) : Option (List PageId × PageTable) :=
  if t.freeIndices.length < count then none
  else
    let picked := t.freeIndices.take count
    some (picked.map (fun i => ⟨i, t.generations i + 1⟩),
      { t with generations := fun i =>
          if picked.contains i then t.generations i + 1 else t.generations i })

theorem PageTable.allocate_eq_none_iff (t : PageTable) (count : Nat) :
    t.allocate count = none ↔ t.freeIndices.length < count := by
  unfold PageTable.allocate
  split
  · simp_all
  · simp_all

theorem PageTable.allocate_some {t : PageTable} {count : Nat} {ids : List PageId}
    {t' : PageTable} (h : t.allocate count = some (ids, t')) :
    ids = (t.freeIndices.take count).map (fun i => ⟨i, t.generations i + 1⟩) ∧
    count ≤ t.freeIndices.length ∧
    t'.page_count = t.page_count ∧ t'.refcounts = t.refcounts ∧
    t'.generations = fun i =>
      if (t.freeIndices.take count).contains i then t.generations i + 1
      else t.generations i := by
  unfold PageTable.allocate at h
  split at h
  · cases h
  · cases h
    refine ⟨rfl, by omega, rfl, rfl, rfl⟩

theorem PageTable.mem_freeIndices {t : PageTable} {i : Nat}
    (h : i ∈ t.freeIndices) : t.refcounts i = 0 ∧ i < t.page_count := by
  unfold PageTable.freeIndices at h
  have h1 := List.of_mem_filter h
  have h2 := List.mem_of_mem_filter h
  simp only [decide_eq_true_eq] at h1
  exact ⟨h1, List.mem_range.mp h2⟩

theorem PageTable.freeIndices_nodup (t : PageTable) : t.freeIndices.Nodup :=
  (List.nodup_range t.page_count).filter _

/-- Claim C3: `allocate(count)` either returns Exhausted (exactly when fewer
than `count` pages are free) or returns exactly `count` pairwise-distinct
fresh PageIds whose physical indices had refcount 0 immediately before the
call, with each such index's generation bumped by one; allocate itself
does not change any refcount, and once the subsequent update references a
new page at `+2` its refcount is 2 (never 1 or below). -/
theorem C3_allocate_fresh_pages (t : PageTable) (count : Nat) :
    (t.allocate count = none ↔ t.freeIndices.length < count) ∧
    (∀ ids t', t.allocate count = some (ids, t') →
      ids.length = count ∧ ids.Nodup ∧ t'.refcounts = t.refcounts ∧
      ∀ id ∈ ids,
        t.refcounts id.physical_page_index = 0 ∧
        id.generation = t.generations id.physical_page_index + 1 ∧
        t'.generations id.physical_page_index
          = t.generations id.physical_page_index + 1 ∧
        applyDeltas t.refcounts [(id.physical_page_index, 2)]
          id.physical_page_index = 2) := by
  refine ⟨PageTable.allocate_eq_none_iff t count, ?_⟩
  intro ids t' h
  obtain ⟨hids, hcnt, -, hrc, hgen⟩ := PageTable.allocate_some h
  have hpicked_nodup : (t.freeIndices.take count).Nodup :=
    (List.take_sublist count t.freeIndices).nodup (PageTable.freeIndices_nodup t)
  refine ⟨?_, ?_, hrc, ?_⟩
  · rw [hids, List.length_map, List.length_take]
    omega
  · rw [hids]
    refine hpicked_nodup.map ?_
    intro a b hab
    cases hab
    rfl
  · intro id hid
    rw [hids] at hid
    obtain ⟨i, hi, rfl⟩ := List.mem_map.mp hid
    have hfree : i ∈ t.freeIndices := List.mem_of_mem_take hi
    have h0 := (PageTable.mem_freeIndices hfree).1
    refine ⟨h0, rfl, ?_, ?_⟩
    · rw [hgen]
      simp only [List.contains_eq_any_beq]
      rw [if_pos ?_]
      rw [List.any_eq_true]
      exact ⟨i, hi, by simp⟩
    · show applyDeltas t.refcounts [(i, 2)] i = 2
      rw [applyDeltas_eq]
      simp [sumDeltasAt, h0]

/-- Concrete page table used by witnesses: 3 pages, all free, all at
generation 0. -/
def pageTable0 : PageTable :=
  { page_count := 3, refcounts := fun _ => 0, generations := fun _ => 0 }

theorem C3_allocate_fresh_pages_witness :
    ∃ ids t', pageTable0.allocate 2 = some (ids, t') ∧ ids.length = 2 ∧ ids.Nodup ∧
      ∀ id ∈ ids, pageTable0.refcounts id.physical_page_index = 0 := by
  cases halloc : pageTable0.allocate 2 with
  | none =>
    have h1 := (C3_allocate_fresh_pages pageTable0 2).1.mp halloc
    exact absurd h1 (by decide)
  | some p =>
    obtain ⟨ids, t'⟩ := p
    have h2 := (C3_allocate_fresh_pages pageTable0 2).2 ids t' halloc
    exact ⟨ids, t', rfl, h2.1, h2.2.1, fun id hid => (h2.2.2.2 id hid).1⟩

/-- Modelled from the spec: the events that change a page table over the
device's lifetime: allocations (which bump generations) and refcount
deltas applied by client updates (which can free pages but never touch
generations). -/
inductive PageEvent where
  | alloc (count : Nat)
  | delta (i : Nat) (d : Int)

/-- Modelled from the spec: one page-table step; a failed (Exhausted)
allocation leaves the table unchanged. -/
def PageTable.stepEv (t : PageTable) : PageEvent → PageTable
  | .alloc count => ((t.allocate count).map (·.2)).getD t
  | .delta i d =>
    { t with refcounts := fun j => if j = i then t.refcounts j + d else t.refcounts j }

/-- Modelled from the spec: running a sequence of page-table events. -/
def PageTable.runEv (t : PageTable) (evs : List PageEvent) : PageTable :=
  evs.foldl PageTable.stepEv t

theorem PageTable.stepEv_generations_mono (t : PageTable) (e : PageEvent) (i : Nat) :
    t.generations i ≤ (t.stepEv e).generations i := by
  cases e with
  | alloc count =>
    show ((((t.allocate count).map (·.2)).getD t)).generations i ≥ _
    cases halloc : t.allocate count with
    | none => exact le_refl _
    | some p =>
      obtain ⟨ids, t'⟩ := p
      obtain ⟨-, -, -, -, hgen⟩ := PageTable.allocate_some halloc
      show t.generations i ≤ t'.generations i
      rw [hgen]
      dsimp only
      split
      · omega
      · exact le_refl _
  | delta j d => exact le_refl _

theorem PageTable.runEv_generations_mono (t : PageTable) (evs : List PageEvent) (i : Nat) :
    t.generations i ≤ (t.runEv evs).generations i := by
  induction evs generalizing t with
  | nil => exact le_refl _
  | cons e evs ih =>
    exact le_trans (PageTable.stepEv_generations_mono t e i) (ih (t.stepEv e))

/-- An allocation returning `id` bumps that index's generation to
`id.generation`, strictly above its previous value. -/
theorem PageTable.allocate_generation_bump {t : PageTable} {count : Nat}
    {ids : List PageId} {t' : PageTable} (h : t.allocate count = some (ids, t'))
    {id : PageId} (hid : id ∈ ids) :
    id.generation = t.generations id.physical_page_index + 1 ∧
    t'.generations id.physical_page_index
      = t.generations id.physical_page_index + 1 := by
  obtain ⟨hids, -, -, -, hgen⟩ := PageTable.allocate_some h
  rw [hids] at hid
  obtain ⟨i, hi, rfl⟩ := List.mem_map.mp hid
  refine ⟨rfl, ?_⟩
  rw [hgen]
  simp only [List.contains_eq_any_beq]
  rw [if_pos ?_]
  rw [List.any_eq_true]
  exact ⟨i, hi, by simp⟩

/-- Claim C4: Per physical page index, the generation component strictly
increases on each allocation (free → allocated transition), is monotone
across every event of the device's lifetime, and therefore a PageId handed
out by a later allocation of the same physical index always carries a
strictly larger generation — no PageId value is ever reused. -/
theorem C4_generation_strictly_increases (t : PageTable) (evs : List PageEvent)
    (count count' : Nat) (ids ids' : List PageId) (t1 t2 : PageTable)
    (id id' : PageId) :
    (∀ i, t.generations i ≤ (t.runEv evs).generations i) ∧
    (t.allocate count = some (ids, t1) → id ∈ ids →
      t.generations id.physical_page_index < id.generation) ∧
    (t.allocate count = some (ids, t1) → id ∈ ids →
      (t1.runEv evs).allocate count' = some (ids', t2) → id' ∈ ids' →
      id'.physical_page_index = id.physical_page_index →
      id.generation < id'.generation ∧ id ≠ id') := by
  refine ⟨PageTable.runEv_generations_mono t evs, ?_, ?_⟩
  · intro h hid
    have := (PageTable.allocate_generation_bump h hid).1
    omega
  · intro h hid h' hid' hidx
    have h1 := PageTable.allocate_generation_bump h hid
    have h2 := PageTable.allocate_generation_bump h' hid'
    have h3 := PageTable.runEv_generations_mono t1 evs id.physical_page_index
    rw [hidx] at h2
    have hlt : id.generation < id'.generation := by omega
    exact ⟨hlt, fun he => by rw [he] at hlt; omega⟩

theorem C4_generation_strictly_increases_witness :
    ∃ ids t1 ids' t2 id id',
      pageTable0.allocate 1 = some (ids, t1) ∧ id ∈ ids ∧
      t1.allocate 1 = some (ids', t2) ∧ id' ∈ ids' ∧
      id'.physical_page_index = id.physical_page_index ∧
      id.generation < id'.generation ∧ id ≠ id' := by
  cases halloc : pageTable0.allocate 1 with
  | none =>
    exact absurd ((PageTable.allocate_eq_none_iff pageTable0 1).mp halloc) (by decide)
  | some p =>
    obtain ⟨ids, t1⟩ := p
    cases halloc' : t1.allocate 1 with
    | none =>
      obtain ⟨hids, -, -, hrc, -⟩ := PageTable.allocate_some halloc
      have hfree : t1.freeIndices = pageTable0.freeIndices := by
        unfold PageTable.freeIndices
        rw [(PageTable.allocate_some halloc).2.2.1, hrc]
      rw [PageTable.allocate_eq_none_iff, hfree] at halloc'
      exact absurd halloc' (by decide)
    | some p' =>
      obtain ⟨ids', t2⟩ := p'
      have hids := (PageTable.allocate_some halloc).1
      have hids' := (PageTable.allocate_some halloc').1
      have hmem : (⟨0, 1⟩ : PageId) ∈ ids := by
        rw [hids]
        have : pageTable0.freeIndices.take 1 = [0] := by decide
        rw [this]
        simp [pageTable0]
      have hfree1 : t1.freeIndices = pageTable0.freeIndices := by
        unfold PageTable.freeIndices
        rw [(PageTable.allocate_some halloc).2.2.1, (PageTable.allocate_some halloc).2.2.2.1]
      have hgen1 := (PageTable.allocate_generation_bump halloc hmem).2
      have hmem' : (⟨0, 2⟩ : PageId) ∈ ids' := by
        rw [hids', hfree1]
        have h01 : pageTable0.freeIndices.take 1 = [0] := by decide
        rw [h01]
        simp only [List.map_cons, List.map_nil, List.mem_singleton]
        have : t1.generations 0 = 1 := hgen1
        rw [this]
      have h4 := (C4_generation_strictly_increases pageTable0 [] 1 1 ids ids' t1 t2
        ⟨0, 1⟩ ⟨0, 2⟩).2.2 halloc hmem halloc' hmem' rfl
      exact ⟨ids, t1, ids', t2, ⟨0, 1⟩, ⟨0, 2⟩, rfl, hmem, halloc', hmem', rfl, h4.1, h4.2⟩

/-- Modelled from the spec: §4.4/§7, applying a single delta
`refcount_i ← refcount_i + Δ` with the underflow check: a delta that would
take the refcount below 0 is a fatal assertion violation (`none`, a
double-free bug); otherwise the exact sum is stored. -/
def applyDeltaChecked (rc : Nat → Int) (i : Nat) (d : Int) : Option (Nat → Int) :=
  if rc i + d < 0 then none
  else some (fun j => if j = i then rc j + d else rc j)

/-- Claim C7: For every applied delta `Δ` to page index `i`, the new
refcount is exactly `refcount_i + Δ` and is never stored as a negative
value: a delta that would take the refcount below 0 is a fatal assertion
violation (double-free bug), never a silently clamped or wrapped value
returned to the caller, and no other index's refcount changes. -/
theorem C7_refcount_underflow_fatal (rc : Nat → Int) (i : Nat) (d : Int) :
    (applyDeltaChecked rc i d = none ↔ rc i + d < 0) ∧
    (∀ rc', applyDeltaChecked rc i d = some rc' →
      rc' i = rc i + d ∧ 0 ≤ rc' i ∧ ∀ j, j ≠ i → rc' j = rc j) := by
  constructor
  · unfold applyDeltaChecked
    split
    · simp_all
    · simp_all
  · intro rc' h
    unfold applyDeltaChecked at h
    split at h
    · cases h
    · cases h
      refine ⟨by simp, by simp; omega, fun j hj => by simp [hj]⟩

theorem C7_refcount_underflow_fatal_witness :
    (applyDeltaChecked (fun _ => (1 : Int)) 5 (-2) = none) ∧
    ((fun j => if j = 5 then (1 : Int) + 2 else 1) 5 = (fun _ => (1 : Int)) 5 + 2) :=
  ⟨(C7_refcount_underflow_fatal (fun _ => (1 : Int)) 5 (-2)).1.mpr (by decide),
   ((C7_refcount_underflow_fatal (fun _ => (1 : Int)) 5 2).2
      (fun j => if j = 5 then (1 : Int) + 2 else 1) rfl).1⟩

/-! ## PackedBloomFilter (translated from src/llfs/bloom_filter.hpp)

The hash functions (`detail::get_nth_hash_for_bloom`, an XXH64 call into
the external xxhash library with hardware-chosen seeds) are abstracted as
a parameter `hash : α → Nat → Nat` giving the n-th hash of an item; every
theorem below holds for an arbitrary such family.
-/

/-- Model of `seq::LoopControl`, the control type used by `hash_for_bloom`. -/
inductive LoopControl where
  | kBreak
  | kContinue
deriving DecidableEq, Repr

/-- The loop of `hash_for_bloom` (bloom_filter.hpp:119-123): run `fn` on
each value in order, returning early on `kBreak`. -/
def runLoop (fn : Nat → LoopControl) : List Nat → LoopControl
  | [] => .kContinue
  | h :: t =>
    match fn h with
    | .kBreak => .kBreak
    | .kContinue => runLoop fn t

/-- Source `hash_for_bloom(item, count, fn)` (bloom_filter.hpp:117): invokes `fn`
with the 0th .. (count−1)th hash of `item`, stopping early if `fn`
returns `kBreak`. -/
def hash_for_bloom {α : Type} (hash : α → Nat → Nat) (item : α) (count : Nat)
    (fn : Nat → LoopControl) : LoopControl :=
  runLoop fn ((List.range count).map (hash item))

/-- Source `PackedBloomFilter` (bloom_filter.hpp:135): the size of the filter in
64-bit words minus one, the number of hash functions, and the word array
(modelled as a list of naturals standing for the 64-bit words). -/
structure PackedBloomFilter where
  word_count_mask : Nat
  hash_count : Nat
  words : List Nat
deriving DecidableEq, Repr

/-- Source `word_count()` (bloom_filter.hpp:226): `word_count_mask + 1`. -/
def PackedBloomFilter.word_count (f : PackedBloomFilter) : Nat :=
  f.word_count_mask + 1

/-- Source `index_from_hash(hash_val)` (bloom_filter.hpp:191):
`(hash_val >> 6) & word_count_mask`. -/
def PackedBloomFilter.index_from_hash (f : PackedBloomFilter) (hash_val : Nat) : Nat :=
  (hash_val >>> 6) &&& f.word_count_mask

/-- Source `bit_mask_from_hash(hash_val)` (bloom_filter.hpp:196):
`u64{1} << (hash_val & 63)`. -/
def PackedBloomFilter.bit_mask_from_hash (hash_val : Nat) : Nat :=
  1 <<< (hash_val &&& 63)

/-- The `words[i] |= m` store of `insert` on the word list (out-of-range
stores, which the C++ code never performs on an initialized filter, leave
the list unchanged). -/
def orWord (l : List Nat) (i m : Nat) : List Nat :=
  l.set i (l.getD i 0 ||| m)

/-- One iteration of `insert`'s loop body (bloom_filter.hpp:217):
`this->words[this->index_from_hash(h)] |= this->bit_mask_from_hash(h)`. -/
def PackedBloomFilter.orWordAt (f : PackedBloomFilter) (h : Nat) : PackedBloomFilter :=
  { f with words := (orWord f.words (f.index_from_hash h)
      (PackedBloomFilter.bit_mask_from_hash h)) }

/-- Source `insert(item)` (bloom_filter.hpp:213-219): the `hash_for_bloom` loop
whose body never breaks, applied as a fold of the store step over the
`hash_count` hashes of `item`. -/
def PackedBloomFilter.insert {α : Type} (hash : α → Nat → Nat) (f : PackedBloomFilter)
    (item : α) : PackedBloomFilter :=
  ((List.range f.hash_count).map (hash item)).foldl PackedBloomFilter.orWordAt f

/-- The bit probe of `might_contain`'s loop body (bloom_filter.hpp:205):
whether `words[index_from_hash(h)] & bit_mask_from_hash(h)` is nonzero. -/
def PackedBloomFilter.testBitOf (f : PackedBloomFilter) (h : Nat) : Bool :=
  (f.words.getD (f.index_from_hash h) 0) &&& PackedBloomFilter.bit_mask_from_hash h != 0

/-- Source `might_contain(item)` (bloom_filter.hpp:201-211): probes the
`hash_count` hashes, breaking out (and answering `false`) at the first
unset bit. -/
def PackedBloomFilter.might_contain {α : Type} (hash : α → Nat → Nat)
    (f : PackedBloomFilter) (item : α) : Bool :=
  hash_for_bloom hash item f.hash_count
      (fun h => if f.testBitOf h then .kContinue else .kBreak) == .kContinue

/-- Source `clear()` (bloom_filter.hpp:221): zeroes the `word_count` words. -/
def PackedBloomFilter.clear (f : PackedBloomFilter) : PackedBloomFilter :=
  { f with words := List.replicate f.word_count 0 }

/-- Modelled from the spec: `batt::log2_ceil` of the external batteries
library (not under src/): `⌈log₂ n⌉`, via a fuelled floor-log₂. -/
def log2_floor_fuel : Nat → Nat → Nat
  | 0, _ => 0
  | fuel + 1, n => if n < 2 then 0 else log2_floor_fuel fuel (n / 2) + 1

/-- Modelled from the spec: `batt::log2_ceil` (external library). -/
def log2_ceil (n : Nat) : Nat :=
  if n ≤ 1 then 0 else log2_floor_fuel (n - 1) (n - 1) + 1

/-- Source `word_count_from_bit_count(filter_bit_count)` (bloom_filter.hpp:159):
`u64{1} << log2_ceil((filter_bit_count + 63) / 64)`. -/
def word_count_from_bit_count (filter_bit_count : Nat) : Nat :=
  1 <<< log2_ceil ((filter_bit_count + 63) / 64)

/-- Source `optimal_hash_count(filter_size_in_bits, item_count)`
(bloom_filter.hpp:164): `std::max<u64>(1, usize(bit_rate * ln2 - 0.5))`.
The inner floating-point expression does not translate to the embedding
and is abstracted as the parameter `fp`; the outer `max 1` is what the
claims depend on. -/
def optimal_hash_count (fp : Nat) : Nat :=
  max 1 fp

/-- Source `initialize(params, item_count)` (bloom_filter.hpp:182-189):
`word_count_mask ← word_count_from_bit_count(bits_per_item·item_count) − 1`
and `hash_count ← optimal_hash_count(num_words·64, item_count)` (whose
floating-point part is the abstracted `fp`).  The assignment to
`hash_count` narrows the `u64` result into the `little_u16` field
(bloom_filter.hpp:143), i.e. it is stored mod `2 ^ 16`. -/
def PackedBloomFilter.setupFrom (f : PackedBloomFilter)
    (bits_per_item item_count fp : Nat) : PackedBloomFilter :=
  let num_words := word_count_from_bit_count (bits_per_item * item_count)
  { f with word_count_mask := num_words - 1,
           hash_count := optimal_hash_count fp % 2 ^ 16 }

theorem getD_set_eq_ite (l : List Nat) (i j v : Nat) :
    (l.set i v).getD j 0 = if i = j ∧ i < l.length then v else l.getD j 0 := by
  induction l generalizing i j with
  | nil => simp
  | cons a t ih =>
    cases i with
    | zero =>
      cases j with
      | zero => simp
      | succ j' => simp
    | succ i' =>
      cases j with
      | zero => simp
      | succ j' =>
        simp only [List.set_cons_succ, List.getD_cons_succ, List.length_cons, ih]
        by_cases h : i' = j' ∧ i' < t.length
        · rw [if_pos h, if_pos ⟨by omega, by omega⟩]
        · rw [if_neg h, if_neg (by omega)]

theorem getD_orWord (l : List Nat) (i m j : Nat) :
    (orWord l i m).getD j 0
      = if i = j ∧ i < l.length then l.getD j 0 ||| m else l.getD j 0 := by
  unfold orWord
  rw [getD_set_eq_ite]
  by_cases h : i = j ∧ i < l.length
  · rw [if_pos h, if_pos h, h.1]
  · rw [if_neg h, if_neg h]

theorem length_orWord (l : List Nat) (i m : Nat) :
    (orWord l i m).length = l.length :=
  List.length_set l i _

theorem orWord_comm (l : List Nat) (i1 m1 i2 m2 : Nat) :
    orWord (orWord l i1 m1) i2 m2 = orWord (orWord l i2 m2) i1 m1 := by
  by_cases he : i1 = i2
  · subst he
    by_cases hl : i1 < l.length
    · unfold orWord
      rw [getD_set_eq_ite, if_pos ⟨rfl, hl⟩, getD_set_eq_ite, if_pos ⟨rfl, hl⟩,
        List.set_set, List.set_set, Nat.or_assoc, Nat.or_assoc, Nat.or_comm m1 m2]
    · have h1 : ∀ v, l.set i1 v = l :=
        fun _ => List.set_eq_of_length_le (Nat.le_of_not_lt hl)
      simp only [orWord, h1]
  · unfold orWord
    rw [getD_set_eq_ite, if_neg (fun hc => he hc.1),
      getD_set_eq_ite, if_neg (fun hc => he hc.1.symm),
      List.set_comm _ _ _ he]

theorem orWord_idem (l : List Nat) (i m : Nat) :
    orWord (orWord l i m) i m = orWord l i m := by
  by_cases hl : i < l.length
  · unfold orWord
    rw [getD_set_eq_ite, if_pos ⟨rfl, hl⟩, List.set_set, Nat.or_assoc, Nat.or_self]
  · have h1 : ∀ v, l.set i v = l :=
      fun _ => List.set_eq_of_length_le (Nat.le_of_not_lt hl)
    simp only [orWord, h1]

theorem orWordAt_word_count_mask (f : PackedBloomFilter) (h : Nat) :
    (f.orWordAt h).word_count_mask = f.word_count_mask := rfl

theorem orWordAt_hash_count (f : PackedBloomFilter) (h : Nat) :
    (f.orWordAt h).hash_count = f.hash_count := rfl

theorem orWordAt_words_length (f : PackedBloomFilter) (h : Nat) :
    (f.orWordAt h).words.length = f.words.length :=
  length_orWord f.words _ _

theorem foldl_orWordAt_mask (f : PackedBloomFilter) (hs : List Nat) :
    (hs.foldl PackedBloomFilter.orWordAt f).word_count_mask = f.word_count_mask := by
  induction hs generalizing f with
  | nil => rfl
  | cons a t ih => exact ih (f.orWordAt a)

theorem foldl_orWordAt_hash_count (f : PackedBloomFilter) (hs : List Nat) :
    (hs.foldl PackedBloomFilter.orWordAt f).hash_count = f.hash_count := by
  induction hs generalizing f with
  | nil => rfl
  | cons a t ih => exact ih (f.orWordAt a)

theorem foldl_orWordAt_words_length (f : PackedBloomFilter) (hs : List Nat) :
    (hs.foldl PackedBloomFilter.orWordAt f).words.length = f.words.length := by
  induction hs generalizing f with
  | nil => rfl
  | cons a t ih => exact (ih (f.orWordAt a)).trans (orWordAt_words_length f a)

/-- Every probed word index is strictly below `word_count` — the masked
index can never exceed `word_count_mask`. -/
theorem index_from_hash_lt_word_count (f : PackedBloomFilter) (h : Nat) :
    f.index_from_hash h < f.word_count :=
  Nat.lt_succ_of_le Nat.and_le_right

theorem testBitOf_eq (f : PackedBloomFilter) (h : Nat) :
    f.testBitOf h = (f.words.getD (f.index_from_hash h) 0).testBit (h &&& 63) := by
  unfold PackedBloomFilter.testBitOf PackedBloomFilter.bit_mask_from_hash
  rw [show (1 : Nat) <<< (h &&& 63) = 2 ^ (h &&& 63) by rw [Nat.shiftLeft_eq, one_mul]]
  rw [Nat.and_two_pow]
  cases hb : (f.words.getD (f.index_from_hash h) 0).testBit (h &&& 63) with
  | false => simp [hb]
  | true => simp [hb, Nat.pos_iff_ne_zero.mp (Nat.two_pow_pos (h &&& 63))]

theorem orWordAt_testBitOf_mono {f : PackedBloomFilter} {b : Nat}
    (hb : f.testBitOf b = true) (h : Nat) : (f.orWordAt h).testBitOf b = true := by
  rw [testBitOf_eq] at hb ⊢
  show (((orWord f.words (f.index_from_hash h) (PackedBloomFilter.bit_mask_from_hash h))).getD
      (f.index_from_hash b) 0).testBit (b &&& 63) = true
  rw [getD_orWord]
  split
  · rw [Nat.testBit_or, hb, Bool.true_or]
  · exact hb

theorem orWordAt_testBitOf_self (f : PackedBloomFilter) (h : Nat)
    (hlt : f.index_from_hash h < f.words.length) :
    (f.orWordAt h).testBitOf h = true := by
  rw [testBitOf_eq]
  show (((orWord f.words (f.index_from_hash h) (PackedBloomFilter.bit_mask_from_hash h))).getD
      (f.index_from_hash h) 0).testBit (h &&& 63) = true
  rw [getD_orWord, if_pos ⟨rfl, hlt⟩, Nat.testBit_or]
  have hm : (PackedBloomFilter.bit_mask_from_hash h).testBit (h &&& 63) = true := by
    unfold PackedBloomFilter.bit_mask_from_hash
    rw [Nat.shiftLeft_eq, one_mul]
    exact Nat.testBit_two_pow_self
  rw [hm, Bool.or_true]

theorem foldl_orWordAt_testBitOf_mono {f : PackedBloomFilter} {b : Nat}
    (hb : f.testBitOf b = true) (hs : List Nat) :
    (hs.foldl PackedBloomFilter.orWordAt f).testBitOf b = true := by
  induction hs generalizing f with
  | nil => exact hb
  | cons a t ih => exact ih (orWordAt_testBitOf_mono hb a)

/-- After folding the store step over a list of hashes, every probed bit of
that list is set (for a filter whose word array has `word_count` words). -/
theorem foldl_orWordAt_testBitOf_all {f : PackedBloomFilter}
    (hwf : f.words.length = f.word_count) (hs : List Nat) :
    ∀ b ∈ hs, (hs.foldl PackedBloomFilter.orWordAt f).testBitOf b = true := by
  induction hs generalizing f with
  | nil => intro b hb; cases hb
  | cons a t ih =>
    intro b hb
    have hwf' : (f.orWordAt a).words.length = (f.orWordAt a).word_count :=
      (orWordAt_words_length f a).trans hwf
    cases List.mem_cons.mp hb with
    | inl hba =>
      subst hba
      exact foldl_orWordAt_testBitOf_mono
        (orWordAt_testBitOf_self f b (by rw [hwf]; exact index_from_hash_lt_word_count f b)) t
    | inr hbt => exact ih hwf' b hbt

theorem runLoop_continue_iff (p : Nat → Bool) (l : List Nat) :
    (runLoop (fun h => if p h then .kContinue else .kBreak) l = .kContinue)
      ↔ l.all p = true := by
  induction l with
  | nil => simp [runLoop]
  | cons a t ih =>
    by_cases hp : p a = true
    · simp [runLoop, hp, ih]
    · simp [runLoop, Bool.eq_false_iff.mpr hp, hp]

theorem might_contain_eq_all {α : Type} (hash : α → Nat → Nat) (f : PackedBloomFilter)
    (x : α) :
    f.might_contain hash x = ((List.range f.hash_count).map (hash x)).all f.testBitOf := by
  unfold PackedBloomFilter.might_contain hash_for_bloom
  rw [Bool.eq_iff_iff, beq_iff_eq]
  exact runLoop_continue_iff f.testBitOf _

theorem insert_word_count_mask {α : Type} (hash : α → Nat → Nat) (f : PackedBloomFilter)
    (x : α) : (f.insert hash x).word_count_mask = f.word_count_mask :=
  foldl_orWordAt_mask f _

theorem insert_hash_count {α : Type} (hash : α → Nat → Nat) (f : PackedBloomFilter)
    (x : α) : (f.insert hash x).hash_count = f.hash_count :=
  foldl_orWordAt_hash_count f _

theorem insert_words_length {α : Type} (hash : α → Nat → Nat) (f : PackedBloomFilter)
    (x : α) : (f.insert hash x).words.length = f.words.length :=
  foldl_orWordAt_words_length f _

/-- Probing is unchanged by any insertion at bits that were already set:
the single-word `|=` store only adds bits. -/
theorem insert_testBitOf_mono {α : Type} (hash : α → Nat → Nat) {f : PackedBloomFilter}
    {b : Nat} (hb : f.testBitOf b = true) (y : α) :
    (f.insert hash y).testBitOf b = true :=
  foldl_orWordAt_testBitOf_mono hb _

theorem insert_might_contain_mono {α : Type} (hash : α → Nat → Nat)
    {f : PackedBloomFilter} {z : α} (hz : f.might_contain hash z = true) (y : α) :
    (f.insert hash y).might_contain hash z = true := by
  rw [might_contain_eq_all] at hz ⊢
  rw [insert_hash_count]
  rw [List.all_eq_true] at hz ⊢
  intro b hb
  exact insert_testBitOf_mono hash (hz b hb) y

theorem foldl_insert_might_contain_mono {α : Type} (hash : α → Nat → Nat)
    {g : PackedBloomFilter} {z : α} (hz : g.might_contain hash z = true)
    (ys : List α) :
    (ys.foldl (PackedBloomFilter.insert hash) g).might_contain hash z = true := by
  induction ys generalizing g with
  | nil => exact hz
  | cons y ys ih => exact ih (insert_might_contain_mono hash hz y)

/-- Claim C8: For every PackedBloomFilter whose word array has `word_count`
entries (as `initialize` + allocation produce) and every item `x`: after
`insert(x)`, `might_contain(x)` returns true, and it remains true after
any further sequence of `insert` calls with arbitrary items — a Bloom
filter has no false negatives.  (Holds for an arbitrary hash-function
family, in particular the XXH64 family of the source.) -/
theorem C8_no_false_negatives {α : Type} (hash : α → Nat → Nat) (f : PackedBloomFilter)
    (x : α) (ys : List α) (hwf : f.words.length = f.word_count) :
    (f.insert hash x).might_contain hash x = true ∧
    (ys.foldl (PackedBloomFilter.insert hash) (f.insert hash x)).might_contain hash x
      = true := by
  have h1 : (f.insert hash x).might_contain hash x = true := by
    rw [might_contain_eq_all, insert_hash_count, List.all_eq_true]
    intro b hb
    exact foldl_orWordAt_testBitOf_all hwf _ b hb
  exact ⟨h1, foldl_insert_might_contain_mono hash h1 ys⟩

/-- A concrete two-word filter with two hash functions, used by the
bloom-filter witnesses. -/
def bloom0 : PackedBloomFilter :=
  { word_count_mask := 1, hash_count := 2, words := [0, 0] }

/-- A concrete stand-in hash family for witness evaluation. -/
def hashW (x i : Nat) : Nat :=
  x * 1000003 + i * 8191

theorem C8_no_false_negatives_witness :
    (bloom0.insert hashW 5).might_contain hashW 5 = true ∧
    ([9].foldl (PackedBloomFilter.insert hashW) (bloom0.insert hashW 5)).might_contain
      hashW 5 = true :=
  C8_no_false_negatives hashW bloom0 5 [9] rfl

theorem orWordAt_comm (f : PackedBloomFilter) (h1 h2 : Nat) :
    (f.orWordAt h1).orWordAt h2 = (f.orWordAt h2).orWordAt h1 := by
  show PackedBloomFilter.mk _ _ _ = PackedBloomFilter.mk _ _ _
  unfold PackedBloomFilter.orWordAt
  simp only
  rw [show ∀ g : PackedBloomFilter, ∀ w, ({ g with words := w } :
    PackedBloomFilter).index_from_hash = g.index_from_hash from fun _ _ => rfl]
  exact congrArg _ (orWord_comm f.words _ _ _ _)

theorem orWordAt_idem (f : PackedBloomFilter) (h : Nat) :
    (f.orWordAt h).orWordAt h = f.orWordAt h := by
  unfold PackedBloomFilter.orWordAt
  simp only
  exact congrArg _ (orWord_idem f.words _ _)

theorem foldl_orWordAt_push (f : PackedBloomFilter) (hs : List Nat) (h : Nat) :
    hs.foldl PackedBloomFilter.orWordAt (f.orWordAt h)
      = (hs.foldl PackedBloomFilter.orWordAt f).orWordAt h := by
  induction hs generalizing f with
  | nil => rfl
  | cons a t ih =>
    show t.foldl _ ((f.orWordAt h).orWordAt a) = _
    rw [orWordAt_comm]
    exact ih (f.orWordAt a)

theorem foldl_orWordAt_swap (f : PackedBloomFilter) (A B : List Nat) :
    B.foldl PackedBloomFilter.orWordAt (A.foldl PackedBloomFilter.orWordAt f)
      = A.foldl PackedBloomFilter.orWordAt (B.foldl PackedBloomFilter.orWordAt f) := by
  induction A generalizing f with
  | nil => rfl
  | cons a A' ih =>
    show B.foldl _ (A'.foldl _ (f.orWordAt a)) = A'.foldl _ ((B.foldl _ f).orWordAt a)
    rw [ih (f.orWordAt a), ← foldl_orWordAt_push]

theorem foldl_orWordAt_idem (f : PackedBloomFilter) (hs : List Nat) :
    hs.foldl PackedBloomFilter.orWordAt (hs.foldl PackedBloomFilter.orWordAt f)
      = hs.foldl PackedBloomFilter.orWordAt f := by
  induction hs generalizing f with
  | nil => rfl
  | cons a t ih =>
    show t.foldl _ ((t.foldl _ (f.orWordAt a)).orWordAt a) = t.foldl _ (f.orWordAt a)
    rw [← foldl_orWordAt_push, orWordAt_idem]
    exact ih (f.orWordAt a)

/-- Claim C10: `insert` only sets bits (each word update is a bitwise OR with
a single-bit mask): it is idempotent (inserting the same item twice yields
the very same filter as inserting it once), commutative (inserting `x`
then `y` equals inserting `y` then `x`), and `might_contain(z)` never
changes from true to false across any insert. -/
theorem C10_insert_monotone_algebra {α : Type} (hash : α → Nat → Nat)
    (f : PackedBloomFilter) (x y z : α) :
    ((f.insert hash x).insert hash x = f.insert hash x) ∧
    ((f.insert hash x).insert hash y = (f.insert hash y).insert hash x) ∧
    (f.might_contain hash z = true → (f.insert hash y).might_contain hash z = true) := by
  refine ⟨?_, ?_, fun hz => insert_might_contain_mono hash hz y⟩
  · show ((List.range (f.insert hash x).hash_count).map (hash x)).foldl _ _ = _
    rw [insert_hash_count]
    exact foldl_orWordAt_idem f _
  · show ((List.range (f.insert hash x).hash_count).map (hash y)).foldl _ _
      = ((List.range (f.insert hash y).hash_count).map (hash x)).foldl _ _
    rw [insert_hash_count, insert_hash_count]
    exact foldl_orWordAt_swap f _ _

theorem C10_insert_monotone_algebra_witness :
    ((bloom0.insert hashW 5).insert hashW 5 = bloom0.insert hashW 5) ∧
    ((bloom0.insert hashW 5).insert hashW 9 = (bloom0.insert hashW 9).insert hashW 5) ∧
    (((bloom0.insert hashW 9).insert hashW 5).might_contain hashW 9 = true) :=
  ⟨(C10_insert_monotone_algebra hashW bloom0 5 9 9).1,
   (C10_insert_monotone_algebra hashW bloom0 5 9 9).2.1,
   (C10_insert_monotone_algebra hashW (bloom0.insert hashW 9) 5 5 9).2.2 (by decide)⟩

/-- Claim C9, counterexample to the claim as stated: `initialize` stores
`optimal_hash_count`'s `u64` result into the `little_u16` field
`hash_count` (bloom_filter.hpp:143,188), so the value wraps mod `2 ^ 16`.
When the floating-point expression yields 65536 (a sufficiently large
caller-chosen `bits_per_item`), the stored `hash_count` is 0 — neither
equal to `optimal_hash_count(...)` nor at least 1. -/
theorem C9_hash_count_narrowing_counterexample :
    (bloom0.setupFrom 4 8 65536).hash_count = 0 ∧
    (bloom0.setupFrom 4 8 65536).hash_count ≠ optimal_hash_count 65536 ∧
    ¬ 1 ≤ (bloom0.setupFrom 4 8 65536).hash_count := by
  refine ⟨by decide, by decide, by decide⟩

/-- Claim C9 (amended): For every filter produced by `initialize` (hence
by `from_params`): `word_count_mask + 1` equals
`word_count_from_bit_count(bits_per_item * item_count)`, which is always a
power of two; `hash_count` is `optimal_hash_count(...)` narrowed to the
16-bit field, and is at least 1 whenever the computed value is below
`2 ^ 16` (the narrowing can wrap it to 0 otherwise); in any case
`index_from_hash(h) < word_count` for every hash value `h`, so the word
accessed by `insert` and `might_contain` lies inside the
`word_count`-element word array, and `clear` writes exactly the
`word_count` words. -/
theorem C9_filter_setup_in_bounds (f : PackedBloomFilter)
    (bits_per_item item_count fp : Nat) :
    ((f.setupFrom bits_per_item item_count fp).word_count
      = word_count_from_bit_count (bits_per_item * item_count)) ∧
    (∃ k, (f.setupFrom bits_per_item item_count fp).word_count = 2 ^ k) ∧
    ((f.setupFrom bits_per_item item_count fp).hash_count
        = optimal_hash_count fp % 2 ^ 16 ∧
      (optimal_hash_count fp < 2 ^ 16 →
        1 ≤ (f.setupFrom bits_per_item item_count fp).hash_count)) ∧
    (∀ h, (f.setupFrom bits_per_item item_count fp).index_from_hash h
      < (f.setupFrom bits_per_item item_count fp).word_count) ∧
    ((f.setupFrom bits_per_item item_count fp).clear.words.length
      = (f.setupFrom bits_per_item item_count fp).word_count) := by
  have hpow : word_count_from_bit_count (bits_per_item * item_count)
      = 2 ^ log2_ceil ((bits_per_item * item_count + 63) / 64) := by
    unfold word_count_from_bit_count
    rw [Nat.shiftLeft_eq, one_mul]
  have hpos : 1 ≤ word_count_from_bit_count (bits_per_item * item_count) := by
    rw [hpow]
    exact Nat.one_le_two_pow
  have hwc : (f.setupFrom bits_per_item item_count fp).word_count
      = word_count_from_bit_count (bits_per_item * item_count) := by
    show word_count_from_bit_count (bits_per_item * item_count) - 1 + 1 = _
    omega
  have hhc : optimal_hash_count fp < 2 ^ 16 →
      1 ≤ (f.setupFrom bits_per_item item_count fp).hash_count := by
    intro hlt
    show 1 ≤ optimal_hash_count fp % 2 ^ 16
    rw [Nat.mod_eq_of_lt hlt]
    exact le_max_left 1 fp
  refine ⟨hwc, ⟨log2_ceil ((bits_per_item * item_count + 63) / 64), by rw [hwc, hpow]⟩,
    ⟨rfl, hhc⟩, fun h => index_from_hash_lt_word_count _ h, ?_⟩
  exact List.length_replicate _ _

theorem C9_filter_setup_in_bounds_witness :
    optimal_hash_count 3 < 2 ^ 16 ∧ 1 ≤ (bloom0.setupFrom 4 8 3).hash_count :=
  ⟨by decide, (C9_filter_setup_in_bounds bloom0 4 8 3).2.2.1.2 (by decide)⟩
